import Mathlib

/-!
Verification of the workspace reconciliation engine of the `ashell` status bar
(`src/modules/workspaces/{mod,hyprland,niri}.rs`), as a shallow embedding.

Modelling conventions:
* Rust `i32`/`i128` values are modelled as `Int`; `u16`/`u32` as `Nat`.
  The only machine-arithmetic effects the code can hit are the `u16` wrap of
  `vdesk.windows += w.windows` (release mode) and the `max_workspaces as i32`
  cast, which are modelled explicitly with `% 2^16` and a `u32 -> i32` cast.
* Rust `i32` division truncates toward zero, which is `Int.tdiv`.
* The one panic reachable in `get_workspaces` (the `(w.id - 1) / monitor_count`
  division when `monitors` is empty and a normal workspace exists) is modelled
  by returning `none`; every non-panicking run returns `some result`.
* `HashMap<i32, VirtualDesktop>` is modelled as an association list built in
  insertion order; the unspecified iteration order of the real `HashMap` is
  modelled by a parameter `ord` that may permute the association list before
  it is emitted.  Theorems quantify over every permutation-producing `ord`.
-/

/-- Displayed state of a workspace entry (`Displayed` in `mod.rs`). -/
inductive Displayed where
  | Active
  | Visible
  | Hidden
deriving DecidableEq, Repr

/-- Normalized workspace record (`Workspace` in `mod.rs`). -/
structure Workspace where
  id : Int
  name : String
  monitor_id : Option Int
  monitor : String
  displayed : Displayed
  windows : Nat
deriving DecidableEq, Repr

/-- Raw workspace as reported by the window manager (the fields of
`hyprland::data::Workspace` that `get_workspaces` reads). -/
structure RawWorkspace where
  id : Int
  name : String
  monitor_id : Option Int
  monitor : String
  windows : Nat
deriving DecidableEq, Repr

/-- Raw monitor as reported by the window manager; only the assigned special
workspace id and the active workspace id are read by `get_workspaces`. -/
structure RawMonitor where
  special_workspace_id : Int
  active_workspace_id : Int
deriving DecidableEq, Repr

/-- Upstream window-manager state consumed by one `get_workspaces` call:
the active workspace (only its id is read), the monitor list and the raw
workspace list, each already with fetch failures replaced by empty/`None`. -/
structure HyprState where
  active_id : Option Int
  monitors : List RawMonitor
  workspaces : List RawWorkspace
deriving DecidableEq, Repr

/-- Configuration consumed by the workspaces module (`WorkspacesModuleConfig`).
`max_workspaces` carries the value of the `u32` field. -/
structure WorkspacesModuleConfig where
  enable_virtual_desktops : Bool
  enable_workspace_filling : Bool
  max_workspaces : Option Nat
  workspace_names : List String
deriving DecidableEq, Repr

/-- Virtual-desktop aggregate (`VirtualDesktop` in `hyprland.rs`). -/
structure VirtualDesktop where
  active : Bool
  windows : Nat
deriving DecidableEq, Repr

/-- Deduplication worker: a workspace is kept when its id has not been seen
yet, mirroring the seen-key set of `itertools::unique_by`. -/
def dedupByIdAux (seen : List Int) : List RawWorkspace → List RawWorkspace
  | [] => []
  | w :: ws =>
    if w.id ∈ seen then dedupByIdAux seen ws
    else w :: dedupByIdAux (w.id :: seen) ws

/-- Deduplication of the raw workspace list by `id`, first occurrence wins
(`workspaces.into_iter().unique_by(|w| w.id)`). -/
def dedupById (l : List RawWorkspace) : List RawWorkspace :=
  dedupByIdAux [] l

/-- Special workspaces of the upstream state, after deduplication
(the `special` half of the `partition(|w| w.id < 0)`). -/
def specialWs (st : HyprState) : List RawWorkspace :=
  (dedupById st.workspaces).filter (fun w => decide (w.id < 0))

/-- Normal workspaces of the upstream state, after deduplication
(the `normal` half of the `partition(|w| w.id < 0)`). -/
def normalWs (st : HyprState) : List RawWorkspace :=
  (dedupById st.workspaces).filter (fun w => !decide (w.id < 0))

/-- Splitting of a character list at every `':'`, mirroring Rust
`str::split(":")`: always at least one (possibly empty) segment. -/
def splitOnColon : List Char → List (List Char)
  | [] => [[]]
  | c :: cs =>
    match splitOnColon cs with
    | [] => [[]]
    | seg :: rest =>
      if c = ':' then [] :: seg :: rest else (c :: seg) :: rest

/-- Display name of a special workspace:
`w.name.split(":").last().map_or_else(|| "".to_string(), |s| s.to_owned())`. -/
def specialDisplayName (s : String) : String :=
  String.mk ((splitOnColon s.data).getLastD [])

/-- Mapping of one special workspace to its output entry
(the `special` loop of `get_workspaces`). -/
def mapSpecial (monitors : List RawMonitor) (w : RawWorkspace) : Workspace :=
  { id := w.id
    name := specialDisplayName w.name
    monitor_id := w.monitor_id
    monitor := w.monitor
    displayed :=
      if monitors.any (fun m => decide (m.special_workspace_id = w.id)) then
        Displayed.Active
      else
        Displayed.Hidden
    windows := w.windows }

/-- Virtual-desktop id of a normal workspace:
`((w.id - 1) / monitor_count as i32) + 1` with Rust (truncating) division. -/
def vdeskIdOf (monitor_count : Int) (id : Int) : Int :=
  (Int.tdiv (id - 1) monitor_count) + 1

/-- Insertion into the virtual-desktop map: an existing entry is updated
(`vdesk.windows += w.windows`, wrapping `u16` addition, and
`vdesk.active = vdesk.active || act`), a missing key is inserted fresh. -/
def vdInsert (m : List (Int × VirtualDesktop)) (k : Int) (act : Bool)
    (wins : Nat) : List (Int × VirtualDesktop) :=
  match m with
  | [] => [(k, { active := act, windows := wins % 65536 })]
  | (k', v) :: rest =>
    if k' = k then
      (k', { active := v.active || act, windows := (v.windows + wins) % 65536 }) :: rest
    else
      (k', v) :: vdInsert rest k act wins

/-- Accumulation of the virtual-desktop map over the normal workspaces
(the `for w in normal.iter()` loop of the virtual-desktop branch). -/
def buildVdesks (active_id : Option Int) (monitor_count : Int)
    (normal : List RawWorkspace) : List (Int × VirtualDesktop) :=
  normal.foldl
    (fun m w =>
      vdInsert m (vdeskIdOf monitor_count w.id)
        (decide (some w.id = active_id)) w.windows)
    []

/-- Name resolution used for virtual desktops and for filled placeholders:
`config.workspace_names.get((id - 1) as usize)` falling back to `id.to_string()`.
An id below 1 makes the `usize` cast wrap far past the name list, so the
fallback is always taken there. -/
def configName (cfg : WorkspacesModuleConfig) (id : Int) : String :=
  if 1 ≤ id then
    (cfg.workspace_names.get? (id - 1).toNat).getD (toString id)
  else
    toString id

/-- Emission of one virtual-desktop map entry as a workspace record. -/
def vdeskEntry (cfg : WorkspacesModuleConfig) (kv : Int × VirtualDesktop) :
    Workspace :=
  { id := kv.1
    name := configName cfg kv.1
    monitor_id := none
    monitor := ""
    displayed := if kv.2.active then Displayed.Active else Displayed.Hidden
    windows := kv.2.windows }

/-- Mapping of one normal workspace in per-monitor mode (the `else` branch):
name from the config for positive ids and the raw name otherwise; `Active`
on a global-active match, else `Visible` when shown on some monitor. -/
def normalEntry (cfg : WorkspacesModuleConfig) (active_id : Option Int)
    (monitors : List RawMonitor) (w : RawWorkspace) : Workspace :=
  { id := w.id
    name := if 0 < w.id then configName cfg w.id else w.name
    monitor_id := w.monitor_id
    monitor := w.monitor
    displayed :=
      if decide (active_id = some w.id) then Displayed.Active
      else if monitors.any (fun m => decide (m.active_workspace_id = w.id)) then
        Displayed.Visible
      else Displayed.Hidden
    windows := w.windows }

/-- Stable insertion of a workspace into a list sorted ascending by `id`. -/
def insertByKey (w : Workspace) : List Workspace → List Workspace
  | [] => [w]
  | v :: vs => if w.id ≤ v.id then w :: v :: vs else v :: insertByKey w vs

/-- Stable sort of the result ascending by `id`
(`result.sort_by_key(|w| w.id)`). -/
def sortByKey : List Workspace → List Workspace
  | [] => []
  | w :: ws => insertByKey w (sortByKey ws)

/-- Conversion of a `u32` value to the `i32` it casts to with `as i32`. -/
def i32ofU32 (n : Nat) : Int :=
  if n % 4294967296 < 2147483648 then ((n % 4294967296 : Nat) : Int)
  else ((n % 4294967296 : Nat) : Int) - 4294967296

/-- Largest positive id among the existing entries, `0` when there is none
(`existing_ids.iter().filter(|&&id| id > 0).max().unwrap_or(&0)`; the fold
with base `0` agrees with `max().unwrap_or(&0)` because every kept id is
positive). -/
def maxPosId (ids : List Int) : Int :=
  (ids.filter (fun i => decide (0 < i))).foldl max 0

/-- Upper bound of the filling range: the largest existing positive id,
raised to `max_workspaces` when the config value exceeds it
(`if let Some(max_workspaces) = config.max_workspaces && max_workspaces > max_id as u32`). -/
def fillMaxId (cfg : WorkspacesModuleConfig) (existing_ids : List Int) : Int :=
  let m := maxPosId existing_ids
  match cfg.max_workspaces with
  | some mw => if m.toNat < mw then i32ofU32 mw else m
  | none => m

/-- Closed integer range `(a..=b)` as a list. -/
def intRange (a b : Int) : List Int :=
  (List.range (b + 1 - a).toNat).map (fun (i : Nat) => a + (i : Int))

/-- Placeholder entry synthesized by workspace filling for a missing id. -/
def placeholder (cfg : WorkspacesModuleConfig) (id : Int) : Workspace :=
  { id := id
    name := if 0 < id then configName cfg id else toString id
    monitor_id := none
    monitor := ""
    displayed := Displayed.Hidden
    windows := 0 }

/-- Workspace filling over the pre-sort result: append a placeholder for every
id in `1..=max_id` that is not already present. -/
def fillMissing (cfg : WorkspacesModuleConfig) (base : List Workspace) :
    List Workspace :=
  let existing_ids := base.map Workspace.id
  let max_id := fillMaxId cfg existing_ids
  let missing := (intRange 1 max_id).filter (fun id => decide (id ∉ existing_ids))
  base ++ missing.map (placeholder cfg)

/-- Result of `get_workspaces` before the filling step and the final sort:
the mapped special workspaces followed by the mode-dependent normal entries.
`ord` models the iteration order of the virtual-desktop `HashMap`; `none`
models the division-by-zero panic of the virtual-desktop id computation when
no monitor is reported and a normal workspace exists. -/
def hyprBase (ord : List (Int × VirtualDesktop) → List (Int × VirtualDesktop))
    (st : HyprState) (cfg : WorkspacesModuleConfig) : Option (List Workspace) :=
  let specialResult := (specialWs st).map (mapSpecial st.monitors)
  if cfg.enable_virtual_desktops then
    if st.monitors.length = 0 ∧ normalWs st ≠ [] then none
    else
      some (specialResult ++
        (ord (buildVdesks st.active_id (st.monitors.length : Int)
          (normalWs st))).map (vdeskEntry cfg))
  else
    some (specialResult ++
      (normalWs st).map (normalEntry cfg st.active_id st.monitors))

/-- Embedding of `HyprlandWorkspaceManager::get_workspaces`: dedup, partition,
map specials, map normals (virtual-desktop or per-monitor mode), optionally
fill missing ids, sort ascending by id.  `none` models the reachable panic. -/
def hyprGetWorkspaces
    (ord : List (Int × VirtualDesktop) → List (Int × VirtualDesktop))
    (st : HyprState) (cfg : WorkspacesModuleConfig) : Option (List Workspace) :=
  match hyprBase ord st cfg with
  | none => none
  | some base =>
    if ¬cfg.enable_workspace_filling ∨ normalWs st = [] then
      some (sortByKey base)
    else
      some (sortByKey (fillMissing cfg base))

/-- Dispatch command issued towards the window manager by the controller. -/
inductive Dispatch where
  | changeWorkspace (id : Int)
  | toggleSpecial (w : Workspace)
deriving DecidableEq, Repr

/-- Embedding of `NiriWorkspaceManager::get_workspaces`: unconditionally
the empty list. -/
def niriGetWorkspaces (_cfg : WorkspacesModuleConfig) : List Workspace := []

/-- Embedding of `NiriWorkspaceManager::change_workspace`: returns `Ok(())`
and issues no dispatch command. -/
def niriChangeWorkspace (_id : Int) (_cfg : WorkspacesModuleConfig) :
    Except String Unit × List Dispatch := (Except.ok (), [])

/-- Embedding of `NiriWorkspaceManager::toggle_special_workspace`: returns
`Ok(())` and issues no dispatch command. -/
def niriToggleSpecialWorkspace (_w : Workspace) :
    Except String Unit × List Dispatch := (Except.ok (), [])

/-- Message type driving the workspace controller (`Message` in `mod.rs`). -/
inductive Message where
  | WorkspacesChanged
  | ChangeWorkspace (id : Int)
  | ToggleSpecialWorkspace (id : Int)
  | Scroll (direction : Int)
deriving DecidableEq, Repr

/-- Manager-abstraction contract used by the controller (`WorkspaceManager`):
the query function plus the outcomes of the two dispatch operations, so that
theorems can quantify over every possible dispatch success or failure. -/
structure Backend where
  get_workspaces : WorkspacesModuleConfig → List Workspace
  change_workspace_res : Int → WorkspacesModuleConfig → Except String Unit
  toggle_special_res : Workspace → Except String Unit

/-- Controller state (`Workspaces<WM>`): the immutable config and the current
workspace vector. -/
structure WorkspacesState where
  config : WorkspacesModuleConfig
  workspaces : List Workspace
deriving Repr

/-- Fold step of `Iterator::min_by_key` on `Workspace.id`: the candidate
replaces the accumulator only on a strictly smaller key (first minimum wins). -/
def minStepById (acc : Option Workspace) (w : Workspace) : Option Workspace :=
  match acc with
  | none => some w
  | some b => if w.id < b.id then some w else some b

/-- First element of the list minimizing `Workspace.id`, mirroring Rust
`Iterator::min_by_key` (first minimum wins). -/
def minByKeyId (l : List Workspace) : Option Workspace :=
  l.foldl minStepById none

/-- Fold step of `Iterator::max_by_key` on `Workspace.id`: the candidate
replaces the accumulator on an equal or larger key (last maximum wins). -/
def maxStepById (acc : Option Workspace) (w : Workspace) : Option Workspace :=
  match acc with
  | none => some w
  | some b => if b.id ≤ w.id then some w else some b

/-- Last element of the list maximizing `Workspace.id`, mirroring Rust
`Iterator::max_by_key` (last maximum wins). -/
def maxByKeyId (l : List Workspace) : Option Workspace :=
  l.foldl maxStepById none

/-- Handling of `Message::ChangeWorkspace(id)`: only positive ids act; a
dispatch is issued unless the target is already the active workspace; a
dispatch `Err` is only logged, so the state is returned untouched on both
outcomes. -/
def updateChangeWorkspace (B : Backend) (s : WorkspacesState) (id : Int) :
    WorkspacesState × List Dispatch :=
  if 0 < id then
    if s.workspaces.any
        (fun w => decide (w.displayed = Displayed.Active) && decide (w.id = id)) then
      (s, [])
    else
      match B.change_workspace_res id s.config with
      | Except.ok _ => (s, [Dispatch.changeWorkspace id])
      | Except.error _ => (s, [Dispatch.changeWorkspace id])
  else
    (s, [])

/-- Embedding of `Workspaces::update`: the controller state machine over the
four messages, returning the next state together with the dispatch commands
issued during the call. -/
def update (B : Backend) (s : WorkspacesState) : Message → WorkspacesState × List Dispatch
  | Message.WorkspacesChanged =>
    ({ s with workspaces := B.get_workspaces s.config }, [])
  | Message.ChangeWorkspace id => updateChangeWorkspace B s id
  | Message.ToggleSpecialWorkspace id =>
    match s.workspaces.find? (fun w => decide (w.id = id) && decide (w.id < 0)) with
    | some special =>
      match B.toggle_special_res special with
      | Except.ok _ => (s, [Dispatch.toggleSpecial special])
      | Except.error _ => (s, [Dispatch.toggleSpecial special])
    | none => (s, [])
  | Message.Scroll direction =>
    match s.workspaces.find? (fun w => decide (w.displayed = Displayed.Active)) with
    | none => (s, [])
    | some cur =>
      let next :=
        if 0 < direction then
          minByKeyId (s.workspaces.filter (fun w => decide (cur.id < w.id)))
        else
          maxByKeyId (s.workspaces.filter (fun w => decide (w.id < cur.id)))
      match next with
      | none => (s, [])
      | some nw => updateChangeWorkspace B s nw.id


/-- Specification-side reading of the special-workspace display name, for the
refinement comparison: the substring after the last `':'` when the raw name
contains one, and the whole raw name otherwise. -/
def amendedSpecialName (s : String) : String :=
  if ':' ∈ s.data then
    String.mk ((s.data.reverse.takeWhile (fun c => decide (c ≠ ':'))).reverse)
  else s


theorem minStepById_foldl (l : List Workspace) (b : Workspace) :
    ∃ n, l.foldl minStepById (some b) = some n ∧ (n = b ∨ n ∈ l) ∧
      n.id ≤ b.id ∧ ∀ w ∈ l, n.id ≤ w.id := by
  induction l generalizing b with
  | nil => exact ⟨b, rfl, Or.inl rfl, le_refl _, by simp⟩
  | cons x xs ih =>
    simp only [List.foldl_cons, minStepById]
    by_cases h : x.id < b.id
    · simp only [if_pos h]
      obtain ⟨n, h1, h2, h3, h4⟩ := ih x
      refine ⟨n, h1, Or.inr ?_, le_of_lt (lt_of_le_of_lt h3 h), ?_⟩
      · rcases h2 with h2 | h2
        · exact h2 ▸ List.mem_cons_self x xs
        · exact List.mem_cons_of_mem x h2
      · intro w hw
        rcases List.mem_cons.mp hw with hw | hw
        · exact hw ▸ h3
        · exact h4 w hw
    · simp only [if_neg h]
      obtain ⟨n, h1, h2, h3, h4⟩ := ih b
      refine ⟨n, h1, ?_, h3, ?_⟩
      · rcases h2 with h2 | h2
        · exact Or.inl h2
        · exact Or.inr (List.mem_cons_of_mem x h2)
      · intro w hw
        rcases List.mem_cons.mp hw with hw | hw
        · exact hw ▸ (h3.trans (not_lt.mp h))
        · exact h4 w hw

theorem maxStepById_foldl (l : List Workspace) (b : Workspace) :
    ∃ n, l.foldl maxStepById (some b) = some n ∧ (n = b ∨ n ∈ l) ∧
      b.id ≤ n.id ∧ ∀ w ∈ l, w.id ≤ n.id := by
  induction l generalizing b with
  | nil => exact ⟨b, rfl, Or.inl rfl, le_refl _, by simp⟩
  | cons x xs ih =>
    simp only [List.foldl_cons, maxStepById]
    by_cases h : b.id ≤ x.id
    · simp only [if_pos h]
      obtain ⟨n, h1, h2, h3, h4⟩ := ih x
      refine ⟨n, h1, Or.inr ?_, h.trans h3, ?_⟩
      · rcases h2 with h2 | h2
        · exact h2 ▸ List.mem_cons_self x xs
        · exact List.mem_cons_of_mem x h2
      · intro w hw
        rcases List.mem_cons.mp hw with hw | hw
        · exact hw ▸ h3
        · exact h4 w hw
    · simp only [if_neg h]
      obtain ⟨n, h1, h2, h3, h4⟩ := ih b
      refine ⟨n, h1, ?_, h3, ?_⟩
      · rcases h2 with h2 | h2
        · exact Or.inl h2
        · exact Or.inr (List.mem_cons_of_mem x h2)
      · intro w hw
        rcases List.mem_cons.mp hw with hw | hw
        · exact hw ▸ ((le_of_lt (not_le.mp h)).trans h3)
        · exact h4 w hw

theorem minByKeyId_spec {l : List Workspace} {n : Workspace}
    (h : minByKeyId l = some n) : n ∈ l ∧ ∀ w ∈ l, n.id ≤ w.id := by
  cases l with
  | nil => cases h
  | cons x xs =>
    obtain ⟨m, h1, h2, h3, h4⟩ := minStepById_foldl xs x
    have hx : minByKeyId (x :: xs) = some m := by
      simpa only [minByKeyId, List.foldl_cons, minStepById] using h1
    have hnm : n = m := by rw [hx] at h; exact (Option.some.inj h).symm
    subst hnm
    constructor
    · rcases h2 with h2 | h2
      · exact h2 ▸ List.mem_cons_self x xs
      · exact List.mem_cons_of_mem x h2
    · intro w hw
      rcases List.mem_cons.mp hw with hw | hw
      · exact hw ▸ h3
      · exact h4 w hw

theorem maxByKeyId_spec {l : List Workspace} {n : Workspace}
    (h : maxByKeyId l = some n) : n ∈ l ∧ ∀ w ∈ l, w.id ≤ n.id := by
  cases l with
  | nil => cases h
  | cons x xs =>
    obtain ⟨m, h1, h2, h3, h4⟩ := maxStepById_foldl xs x
    have hx : maxByKeyId (x :: xs) = some m := by
      simpa only [maxByKeyId, List.foldl_cons, maxStepById] using h1
    have hnm : n = m := by rw [hx] at h; exact (Option.some.inj h).symm
    subst hnm
    constructor
    · rcases h2 with h2 | h2
      · exact h2 ▸ List.mem_cons_self x xs
      · exact List.mem_cons_of_mem x h2
    · intro w hw
      rcases List.mem_cons.mp hw with hw | hw
      · exact hw ▸ h3
      · exact h4 w hw

theorem minByKeyId_eq_none_iff (l : List Workspace) :
    minByKeyId l = none ↔ l = [] := by
  cases l with
  | nil => simp [minByKeyId]
  | cons x xs =>
    obtain ⟨m, h1, -, -, -⟩ := minStepById_foldl xs x
    constructor
    · intro h
      have hx : minByKeyId (x :: xs) = some m := by
        simpa only [minByKeyId, List.foldl_cons, minStepById] using h1
      rw [hx] at h
      cases h
    · intro h
      cases h

theorem maxByKeyId_eq_none_iff (l : List Workspace) :
    maxByKeyId l = none ↔ l = [] := by
  cases l with
  | nil => simp [maxByKeyId]
  | cons x xs =>
    obtain ⟨m, h1, -, -, -⟩ := maxStepById_foldl xs x
    constructor
    · intro h
      have hx : maxByKeyId (x :: xs) = some m := by
        simpa only [maxByKeyId, List.foldl_cons, maxStepById] using h1
      rw [hx] at h
      cases h
    · intro h
      cases h

/-- C9: the degraded backend returns the empty workspace list for every
config, and both dispatch operations succeed for every input while issuing
no dispatch command. -/
theorem c9_degraded_backend_noop (cfg : WorkspacesModuleConfig) (i : Int)
    (w : Workspace) :
    niriGetWorkspaces cfg = [] ∧
    niriChangeWorkspace i cfg = (Except.ok (), []) ∧
    niriToggleSpecialWorkspace w = (Except.ok (), []) :=
  ⟨rfl, rfl, rfl⟩

/-- C7: `ChangeWorkspace(id)` dispatches exactly when `id` is positive and no
stored workspace with that id is `Active`; the stored state is unchanged for
every backend outcome, success or failure. -/
theorem c7_change_workspace_contract (B : Backend) (s : WorkspacesState)
    (i : Int) :
    (update B s (Message.ChangeWorkspace i)).1 = s ∧
    (update B s (Message.ChangeWorkspace i)).2 =
      (if 0 < i ∧ ¬∃ w ∈ s.workspaces, w.displayed = Displayed.Active ∧ w.id = i
       then [Dispatch.changeWorkspace i] else []) := by
  have hiff :
      (s.workspaces.any
        (fun w => decide (w.displayed = Displayed.Active) && decide (w.id = i)) = true) ↔
      ∃ w ∈ s.workspaces, w.displayed = Displayed.Active ∧ w.id = i := by
    simp [List.any_eq_true, Bool.and_eq_true, decide_eq_true_iff]
  have hval : update B s (Message.ChangeWorkspace i) =
      (s, if 0 < i ∧ ¬∃ w ∈ s.workspaces, w.displayed = Displayed.Active ∧ w.id = i
          then [Dispatch.changeWorkspace i] else []) := by
    show updateChangeWorkspace B s i = _
    unfold updateChangeWorkspace
    by_cases hid : 0 < i
    · rw [if_pos hid]
      by_cases hact :
          s.workspaces.any
            (fun w => decide (w.displayed = Displayed.Active) && decide (w.id = i)) = true
      · have hex := hiff.mp hact
        rw [if_pos hact, if_neg (fun h => h.2 hex)]
      · have hnex : ¬∃ w ∈ s.workspaces, w.displayed = Displayed.Active ∧ w.id = i :=
          fun h => hact (hiff.mpr h)
        rw [if_neg hact, if_pos ⟨hid, hnex⟩]
        cases hres : B.change_workspace_res i s.config with
        | ok u => rfl
        | error e => rfl
    · rw [if_neg hid, if_neg (fun h => hid h.1)]
  exact ⟨by rw [hval], by rw [hval]⟩

/-- C10: when the backward neighbor of the active workspace is a special
workspace (negative id), `Scroll` with a non-positive direction issues no
dispatch and leaves the state unchanged, because the recursive
`ChangeWorkspace` ignores non-positive ids. -/
theorem c10_scroll_backward_to_special_noop (B : Backend)
    (s : WorkspacesState) (d : Int) (cur nw : Workspace)
    (hd : d ≤ 0)
    (hcur : s.workspaces.find?
      (fun w => decide (w.displayed = Displayed.Active)) = some cur)
    (hnw : maxByKeyId (s.workspaces.filter (fun w => decide (w.id < cur.id)))
      = some nw)
    (hneg : nw.id < 0) :
    update B s (Message.Scroll d) = (s, []) := by
  have hdpos : ¬0 < d := by omega
  have hnwpos : ¬0 < nw.id := by omega
  simp only [update, hcur, if_neg hdpos, hnw, updateChangeWorkspace,
    if_neg hnwpos]

theorem c10_witness :
    update
      { get_workspaces := fun _ => []
        change_workspace_res := fun _ _ => Except.ok ()
        toggle_special_res := fun _ => Except.ok () }
      { config := { enable_virtual_desktops := false
                    enable_workspace_filling := false
                    max_workspaces := none
                    workspace_names := [] }
        workspaces := [⟨-1, "s", none, "", Displayed.Hidden, 0⟩,
                       ⟨1, "1", none, "", Displayed.Active, 0⟩] }
      (Message.Scroll (-1)) =
    ({ config := { enable_virtual_desktops := false
                   enable_workspace_filling := false
                   max_workspaces := none
                   workspace_names := [] }
       workspaces := [⟨-1, "s", none, "", Displayed.Hidden, 0⟩,
                      ⟨1, "1", none, "", Displayed.Active, 0⟩] }, []) :=
  c10_scroll_backward_to_special_noop _ _ (-1)
    ⟨1, "1", none, "", Displayed.Active, 0⟩
    ⟨-1, "s", none, "", Displayed.Hidden, 0⟩
    (by decide) (by rfl) (by rfl) (by decide)

/-- C4 (code bug): with virtual desktops enabled, zero reported monitors and
one normal workspace, `get_workspaces` reaches the unguarded
`(w.id - 1) / monitor_count` division with `monitor_count = 0` and panics;
the model returns `none` instead of a list. -/
theorem c4_zero_monitors_division_panics :
    hyprGetWorkspaces id
      { active_id := none
        monitors := []
        workspaces := [⟨1, "1", none, "", 0⟩] }
      { enable_virtual_desktops := true
        enable_workspace_filling := false
        max_workspaces := none
        workspace_names := [] } = none := by rfl

/-- C1 counterexample: a monitor with an assigned special workspace plus the
globally active normal workspace produce two `Active` entries in one result. -/
theorem c1_counterexample :
    ¬(((hyprGetWorkspaces id
        { active_id := some 1
          monitors := [⟨-1, 1⟩]
          workspaces := [⟨-1, "special:x", some 0, "DP-1", 0⟩,
                         ⟨1, "1", some 0, "DP-1", 1⟩] }
        { enable_virtual_desktops := false
          enable_workspace_filling := false
          max_workspaces := none
          workspace_names := [] }).getD []).countP
      (fun w => decide (w.displayed = Displayed.Active)) ≤ 1) := by decide

/-- C3 counterexample: with virtual desktops enabled, workspace filling still
runs: a synthesized placeholder with id 2 appears in the output even though
`enable_virtual_desktops = true`. -/
theorem c3_counterexample :
    ({ id := 2
       name := "2"
       monitor_id := none
       monitor := ""
       displayed := Displayed.Hidden
       windows := 0 } : Workspace) ∈
    ((hyprGetWorkspaces id
      { active_id := none
        monitors := [⟨0, 1⟩]
        workspaces := [⟨1, "1", some 0, "DP-1", 2⟩] }
      { enable_virtual_desktops := true
        enable_workspace_filling := true
        max_workspaces := some 3
        workspace_names := [] }).getD []) := by decide

/-- C5 counterexample: a special workspace whose raw name contains no `':'`
keeps its whole raw name as display name instead of the empty string the
claim demands. -/
theorem c5_counterexample :
    (((hyprGetWorkspaces id
      { active_id := none
        monitors := []
        workspaces := [⟨-1, "scratch", none, "", 0⟩] }
      { enable_virtual_desktops := false
        enable_workspace_filling := false
        max_workspaces := none
        workspace_names := [] }).getD []).map Workspace.name = ["scratch"]) ∧
    ("scratch" : String) ≠ "" := ⟨by rfl, by decide⟩

/-- C6: `Scroll` is a no-op without an `Active` workspace; otherwise it
targets the workspace with the least id strictly above the active id
(direction positive) or the greatest id strictly below it (direction
non-positive), is a no-op when no such neighbor exists, and otherwise
behaves exactly as `ChangeWorkspace` on the neighbor's id. -/
theorem c6_scroll_selects_nearest_neighbor (B : Backend) (s : WorkspacesState)
    (d : Int) :
    (s.workspaces.find? (fun w => decide (w.displayed = Displayed.Active)) = none →
      update B s (Message.Scroll d) = (s, [])) ∧
    (∀ cur, s.workspaces.find? (fun w => decide (w.displayed = Displayed.Active)) = some cur →
      (0 < d →
        (s.workspaces.filter (fun w => decide (cur.id < w.id)) = [] →
          update B s (Message.Scroll d) = (s, [])) ∧
        (∀ nw, minByKeyId (s.workspaces.filter (fun w => decide (cur.id < w.id))) = some nw →
          nw ∈ s.workspaces ∧ cur.id < nw.id ∧
          (∀ w ∈ s.workspaces, cur.id < w.id → nw.id ≤ w.id) ∧
          update B s (Message.Scroll d) = update B s (Message.ChangeWorkspace nw.id))) ∧
      (d ≤ 0 →
        (s.workspaces.filter (fun w => decide (w.id < cur.id)) = [] →
          update B s (Message.Scroll d) = (s, [])) ∧
        (∀ nw, maxByKeyId (s.workspaces.filter (fun w => decide (w.id < cur.id))) = some nw →
          nw ∈ s.workspaces ∧ nw.id < cur.id ∧
          (∀ w ∈ s.workspaces, w.id < cur.id → w.id ≤ nw.id) ∧
          update B s (Message.Scroll d) = update B s (Message.ChangeWorkspace nw.id)))) := by
  refine ⟨fun hnone => ?_, fun cur hcur => ⟨fun hd => ⟨fun hnil => ?_, fun nw hnw => ?_⟩,
    fun hd => ⟨fun hnil => ?_, fun nw hnw => ?_⟩⟩⟩
  · simp only [update, hnone]
  · have : minByKeyId (s.workspaces.filter (fun w => decide (cur.id < w.id))) = none := by
      rw [minByKeyId_eq_none_iff]; exact hnil
    simp only [update, hcur, if_pos hd, this]
  · obtain ⟨hmem, hub⟩ := minByKeyId_spec hnw
    have hmem' := List.mem_filter.mp hmem
    refine ⟨hmem'.1, of_decide_eq_true hmem'.2, fun w hw hlt => ?_, ?_⟩
    · exact hub w (List.mem_filter.mpr ⟨hw, decide_eq_true hlt⟩)
    · simp only [update, hcur, if_pos hd, hnw]
  · have hdneg : ¬0 < d := by omega
    have : maxByKeyId (s.workspaces.filter (fun w => decide (w.id < cur.id))) = none := by
      rw [maxByKeyId_eq_none_iff]; exact hnil
    simp only [update, hcur, if_neg hdneg, this]
  · have hdneg : ¬0 < d := by omega
    obtain ⟨hmem, hub⟩ := maxByKeyId_spec hnw
    have hmem' := List.mem_filter.mp hmem
    refine ⟨hmem'.1, of_decide_eq_true hmem'.2, fun w hw hlt => ?_, ?_⟩
    · exact hub w (List.mem_filter.mpr ⟨hw, decide_eq_true hlt⟩)
    · simp only [update, hcur, if_neg hdneg, hnw]

theorem c6_witness :
    update
      { get_workspaces := fun _ => []
        change_workspace_res := fun _ _ => Except.ok ()
        toggle_special_res := fun _ => Except.ok () }
      { config := { enable_virtual_desktops := false
                    enable_workspace_filling := false
                    max_workspaces := none
                    workspace_names := [] }
        workspaces := [⟨1, "1", none, "", Displayed.Hidden, 0⟩,
                       ⟨2, "2", none, "", Displayed.Hidden, 0⟩,
                       ⟨3, "3", none, "", Displayed.Active, 0⟩,
                       ⟨5, "5", none, "", Displayed.Hidden, 0⟩] }
      (Message.Scroll 1) =
    update
      { get_workspaces := fun _ => []
        change_workspace_res := fun _ _ => Except.ok ()
        toggle_special_res := fun _ => Except.ok () }
      { config := { enable_virtual_desktops := false
                    enable_workspace_filling := false
                    max_workspaces := none
                    workspace_names := [] }
        workspaces := [⟨1, "1", none, "", Displayed.Hidden, 0⟩,
                       ⟨2, "2", none, "", Displayed.Hidden, 0⟩,
                       ⟨3, "3", none, "", Displayed.Active, 0⟩,
                       ⟨5, "5", none, "", Displayed.Hidden, 0⟩] }
      (Message.ChangeWorkspace 5) :=
  ((((c6_scroll_selects_nearest_neighbor _ _ 1).2
      ⟨3, "3", none, "", Displayed.Active, 0⟩ (by rfl)).1 (by decide)).2
    ⟨5, "5", none, "", Displayed.Hidden, 0⟩ (by rfl)).2.2.2

theorem dedupByIdAux_sound (l : List RawWorkspace) :
    ∀ seen : List Int,
      (∀ x ∈ dedupByIdAux seen l, x ∈ l) ∧
      (∀ x ∈ dedupByIdAux seen l, x.id ∉ seen) ∧
      ((dedupByIdAux seen l).map RawWorkspace.id).Nodup := by
  induction l with
  | nil => intro seen; simp [dedupByIdAux]
  | cons w ws ih =>
    intro seen
    by_cases hw : w.id ∈ seen
    · have h := ih seen
      refine ⟨fun x hx => ?_, fun x hx => ?_, ?_⟩
      · simp only [dedupByIdAux, if_pos hw] at hx
        exact List.mem_cons_of_mem w (h.1 x hx)
      · simp only [dedupByIdAux, if_pos hw] at hx
        exact h.2.1 x hx
      · simp only [dedupByIdAux, if_pos hw]
        exact h.2.2
    · have h := ih (w.id :: seen)
      refine ⟨fun x hx => ?_, fun x hx => ?_, ?_⟩
      · simp only [dedupByIdAux, if_neg hw] at hx
        rcases List.mem_cons.mp hx with hx | hx
        · exact hx ▸ List.mem_cons_self w ws
        · exact List.mem_cons_of_mem w (h.1 x hx)
      · simp only [dedupByIdAux, if_neg hw] at hx
        rcases List.mem_cons.mp hx with hx | hx
        · exact hx ▸ hw
        · intro hxs
          exact h.2.1 x hx (List.mem_cons_of_mem _ hxs)
      · simp only [dedupByIdAux, if_neg hw, List.map_cons]
        refine List.Pairwise.cons ?_ h.2.2
        intro b hb
        obtain ⟨y, hy, hyb⟩ := List.mem_map.mp hb
        intro hwb
        exact h.2.1 y hy (hwb ▸ hyb ▸ List.mem_cons_self _ _)

theorem dedupById_mem {l : List RawWorkspace} {x : RawWorkspace}
    (h : x ∈ dedupById l) : x ∈ l :=
  (dedupByIdAux_sound l []).1 x h

theorem dedupById_ids_nodup (l : List RawWorkspace) :
    ((dedupById l).map RawWorkspace.id).Nodup :=
  (dedupByIdAux_sound l []).2.2

theorem insertByKey_perm (w : Workspace) (l : List Workspace) :
    (insertByKey w l).Perm (w :: l) := by
  induction l with
  | nil => exact List.Perm.refl _
  | cons v vs ih =>
    simp only [insertByKey]
    by_cases h : w.id ≤ v.id
    · rw [if_pos h]
    · rw [if_neg h]
      exact (List.Perm.cons v ih).trans (List.Perm.swap w v vs)

theorem insertByKey_sorted {l : List Workspace} (w : Workspace)
    (h : l.Pairwise (fun a b => a.id ≤ b.id)) :
    (insertByKey w l).Pairwise (fun a b => a.id ≤ b.id) := by
  induction l with
  | nil => simp [insertByKey]
  | cons v vs ih =>
    rw [List.pairwise_cons] at h
    simp only [insertByKey]
    by_cases hle : w.id ≤ v.id
    · rw [if_pos hle]
      refine List.Pairwise.cons ?_ (List.Pairwise.cons h.1 h.2)
      intro b hb
      rcases List.mem_cons.mp hb with hb | hb
      · exact hb ▸ hle
      · exact hle.trans (h.1 b hb)
    · rw [if_neg hle]
      refine List.Pairwise.cons ?_ (ih h.2)
      intro b hb
      have hb' := (insertByKey_perm w vs).mem_iff.mp hb
      rcases List.mem_cons.mp hb' with hb' | hb'
      · exact hb' ▸ le_of_lt (not_le.mp hle)
      · exact h.1 b hb'

theorem sortByKey_perm (l : List Workspace) : (sortByKey l).Perm l := by
  induction l with
  | nil => exact List.Perm.refl _
  | cons w ws ih =>
    exact (insertByKey_perm w (sortByKey ws)).trans (List.Perm.cons w ih)

theorem sortByKey_sorted (l : List Workspace) :
    (sortByKey l).Pairwise (fun a b => a.id ≤ b.id) := by
  induction l with
  | nil => simp [sortByKey]
  | cons w ws ih => exact insertByKey_sorted w ih

theorem vdInsert_keys (m : List (Int × VirtualDesktop)) (k : Int) (act : Bool)
    (wins : Nat) :
    (vdInsert m k act wins).map Prod.fst =
      (if k ∈ m.map Prod.fst then m.map Prod.fst else m.map Prod.fst ++ [k]) := by
  induction m with
  | nil => simp [vdInsert]
  | cons kv rest ih =>
    obtain ⟨k', v⟩ := kv
    by_cases h : k' = k
    · subst h
      simp [vdInsert]
    · simp only [vdInsert, if_neg h, List.map_cons, ih]
      by_cases hmem : k ∈ rest.map Prod.fst
      · rw [if_pos hmem, if_pos]
        simp [hmem]
      · rw [if_neg hmem, if_neg]
        · simp
        · simp only [List.map_cons, List.mem_cons]
          rintro (hk | hk)
          · exact h hk.symm
          · exact hmem hk

theorem vdInsert_keys_nodup {m : List (Int × VirtualDesktop)} (k : Int)
    (act : Bool) (wins : Nat) (h : (m.map Prod.fst).Nodup) :
    ((vdInsert m k act wins).map Prod.fst).Nodup := by
  rw [vdInsert_keys]
  by_cases hmem : k ∈ m.map Prod.fst
  · rwa [if_pos hmem]
  · rw [if_neg hmem]
    refine List.Nodup.append h (List.nodup_singleton k) ?_
    intro x hx hx'
    rw [List.mem_singleton] at hx'
    exact hmem (hx' ▸ hx)

theorem vdInsert_keys_subset {m : List (Int × VirtualDesktop)} {k : Int}
    {act : Bool} {wins : Nat} {x : Int}
    (h : x ∈ (vdInsert m k act wins).map Prod.fst) :
    x = k ∨ x ∈ m.map Prod.fst := by
  rw [vdInsert_keys] at h
  by_cases hmem : k ∈ m.map Prod.fst
  · rw [if_pos hmem] at h
    exact Or.inr h
  · rw [if_neg hmem] at h
    rcases List.mem_append.mp h with h | h
    · exact Or.inr h
    · exact Or.inl (List.mem_singleton.mp h)

theorem buildVdesksAux_keys_nodup (active_id : Option Int) (mc : Int)
    (normal : List RawWorkspace) :
    ∀ m : List (Int × VirtualDesktop), (m.map Prod.fst).Nodup →
      ((normal.foldl
        (fun m w => vdInsert m (vdeskIdOf mc w.id)
          (decide (some w.id = active_id)) w.windows) m).map Prod.fst).Nodup := by
  induction normal with
  | nil => intro m hm; exact hm
  | cons w ws ih =>
    intro m hm
    exact ih _ (vdInsert_keys_nodup _ _ _ hm)

theorem buildVdesks_keys_nodup (active_id : Option Int) (mc : Int)
    (normal : List RawWorkspace) :
    ((buildVdesks active_id mc normal).map Prod.fst).Nodup :=
  buildVdesksAux_keys_nodup active_id mc normal [] (by simp)

theorem vdeskIdOf_nonneg {mc i : Int} (hi : 0 ≤ i) (hmc : 1 ≤ mc) :
    0 ≤ vdeskIdOf mc i := by
  unfold vdeskIdOf
  rcases eq_or_lt_of_le hi with hi0 | hi1
  · have h1 : i - 1 = -1 := by omega
    rw [h1]
    have h2 : (-1 : Int).tdiv mc = -(Int.tdiv 1 mc) := by
      rw [← Int.neg_tdiv]
    rw [h2]
    rcases eq_or_lt_of_le hmc with hmc1 | hmc2
    · rw [← hmc1]
      decide
    · rw [Int.tdiv_eq_zero_of_lt (by omega) hmc2]
      omega
  · have h1 : 0 ≤ i - 1 := by omega
    have := Int.tdiv_nonneg h1 (by omega : (0:Int) ≤ mc)
    omega

theorem buildVdesksAux_keys_nonneg (active_id : Option Int) (mc : Int)
    (hmc : 1 ≤ mc) (normal : List RawWorkspace)
    (hn : ∀ w ∈ normal, 0 ≤ w.id) :
    ∀ m : List (Int × VirtualDesktop), (∀ x ∈ m.map Prod.fst, 0 ≤ x) →
      ∀ x ∈ (normal.foldl
        (fun m w => vdInsert m (vdeskIdOf mc w.id)
          (decide (some w.id = active_id)) w.windows) m).map Prod.fst, 0 ≤ x := by
  induction normal with
  | nil => intro m hm; exact hm
  | cons w ws ih =>
    intro m hm
    refine ih (fun v hv => hn v (List.mem_cons_of_mem w hv)) _ ?_
    intro x hx
    rcases vdInsert_keys_subset hx with hx | hx
    · exact hx ▸ vdeskIdOf_nonneg (hn w (List.mem_cons_self w ws)) hmc
    · exact hm x hx

theorem buildVdesks_keys_nonneg {active_id : Option Int} {mc : Int}
    (hmc : 1 ≤ mc) {normal : List RawWorkspace}
    (hn : ∀ w ∈ normal, 0 ≤ w.id) :
    ∀ x ∈ (buildVdesks active_id mc normal).map Prod.fst, 0 ≤ x :=
  buildVdesksAux_keys_nonneg active_id mc hmc normal hn [] (by simp)

theorem vdInsert_countActive (m : List (Int × VirtualDesktop)) (k : Int)
    (act : Bool) (wins : Nat) :
    (vdInsert m k act wins).countP (fun kv => kv.2.active) ≤
      m.countP (fun kv => kv.2.active) + (if act then 1 else 0) := by
  induction m with
  | nil =>
    simp only [vdInsert, List.countP_cons, List.countP_nil]
    cases act <;> simp
  | cons kv rest ih =>
    obtain ⟨k', v⟩ := kv
    by_cases h : k' = k
    · subst h
      simp only [vdInsert, if_pos rfl, List.countP_cons]
      cases hv : v.active <;> cases act <;> simp [hv]
    · simp only [vdInsert, if_neg h, List.countP_cons]
      omega

theorem buildVdesksAux_countActive (active_id : Option Int) (mc : Int)
    (normal : List RawWorkspace) :
    ∀ m : List (Int × VirtualDesktop),
      (normal.foldl
        (fun m w => vdInsert m (vdeskIdOf mc w.id)
          (decide (some w.id = active_id)) w.windows) m).countP
            (fun kv => kv.2.active) ≤
        m.countP (fun kv => kv.2.active) +
          normal.countP (fun w => decide (some w.id = active_id)) := by
  induction normal with
  | nil => intro m; simp
  | cons w ws ih =>
    intro m
    calc (List.foldl _ (vdInsert m (vdeskIdOf mc w.id)
        (decide (some w.id = active_id)) w.windows) ws).countP
          (fun kv => kv.2.active) ≤
        (vdInsert m (vdeskIdOf mc w.id)
          (decide (some w.id = active_id)) w.windows).countP
            (fun kv => kv.2.active) +
          ws.countP (fun w => decide (some w.id = active_id)) := ih _
      _ ≤ m.countP (fun kv => kv.2.active) +
          (if decide (some w.id = active_id) then 1 else 0) +
          ws.countP (fun w => decide (some w.id = active_id)) := by
        have := vdInsert_countActive m (vdeskIdOf mc w.id)
          (decide (some w.id = active_id)) w.windows
        omega
      _ = m.countP (fun kv => kv.2.active) +
          (w :: ws).countP (fun w => decide (some w.id = active_id)) := by
        rw [List.countP_cons]
        omega

theorem buildVdesks_countActive (active_id : Option Int) (mc : Int)
    (normal : List RawWorkspace) :
    (buildVdesks active_id mc normal).countP (fun kv => kv.2.active) ≤
      normal.countP (fun w => decide (some w.id = active_id)) := by
  have := buildVdesksAux_countActive active_id mc normal []
  simpa using this

theorem countP_le_one_of_key {α β : Type} [DecidableEq β] {l : List α}
    {key : α → β} {p : α → Bool} {c : β}
    (hnodup : (l.map key).Nodup) (hp : ∀ x ∈ l, p x = true → key x = c) :
    l.countP p ≤ 1 := by
  induction l with
  | nil => simp
  | cons x xs ih =>
    rw [List.map_cons, List.nodup_cons] at hnodup
    rw [List.countP_cons]
    by_cases hx : p x = true
    · have hkey := hp x (List.mem_cons_self x xs) hx
      have hzero : xs.countP p = 0 := by
        rw [List.countP_eq_zero]
        intro a ha hpa
        have hka := hp a (List.mem_cons_of_mem x ha) hpa
        have hmem : key x ∈ List.map key xs := by
          rw [hkey, ← hka]
          exact List.mem_map.mpr ⟨a, ha, rfl⟩
        exact hnodup.1 hmem
      simp [hx, hzero]
    · have := ih hnodup.2 (fun a ha => hp a (List.mem_cons_of_mem x ha))
      simp [hx]
      omega

theorem specialResult_ids (st : HyprState) :
    ((specialWs st).map (mapSpecial st.monitors)).map Workspace.id =
      (specialWs st).map RawWorkspace.id := by
  rw [List.map_map]
  rfl

theorem normalResult_ids (cfg : WorkspacesModuleConfig) (st : HyprState) :
    ((normalWs st).map (normalEntry cfg st.active_id st.monitors)).map
        Workspace.id = (normalWs st).map RawWorkspace.id := by
  rw [List.map_map]
  rfl

theorem vdeskResult_ids (cfg : WorkspacesModuleConfig)
    (l : List (Int × VirtualDesktop)) :
    (l.map (vdeskEntry cfg)).map Workspace.id = l.map Prod.fst := by
  rw [List.map_map]
  rfl

theorem fillResult_ids (cfg : WorkspacesModuleConfig) (missing : List Int) :
    (missing.map (placeholder cfg)).map Workspace.id = missing := by
  rw [List.map_map]
  exact List.map_id' missing

theorem specialWs_ids_nodup (st : HyprState) :
    ((specialWs st).map RawWorkspace.id).Nodup :=
  ((List.filter_sublist _).map RawWorkspace.id).nodup
    (dedupById_ids_nodup st.workspaces)

theorem normalWs_ids_nodup (st : HyprState) :
    ((normalWs st).map RawWorkspace.id).Nodup :=
  ((List.filter_sublist _).map RawWorkspace.id).nodup
    (dedupById_ids_nodup st.workspaces)

theorem specialWs_ids_neg (st : HyprState) :
    ∀ w ∈ specialWs st, w.id < 0 := by
  intro w hw
  have := (List.mem_filter.mp hw).2
  exact of_decide_eq_true this

theorem normalWs_ids_nonneg (st : HyprState) :
    ∀ w ∈ normalWs st, 0 ≤ w.id := by
  intro w hw
  have := (List.mem_filter.mp hw).2
  simp only [Bool.not_eq_true', decide_eq_false_iff_not, not_lt] at this
  exact this

theorem hyprBase_cases {ord : List (Int × VirtualDesktop) → List (Int × VirtualDesktop)}
    {st : HyprState} {cfg : WorkspacesModuleConfig} {base : List Workspace}
    (hb : hyprBase ord st cfg = some base) :
    (cfg.enable_virtual_desktops = true ∧
      ¬(st.monitors.length = 0 ∧ normalWs st ≠ []) ∧
      base = (specialWs st).map (mapSpecial st.monitors) ++
        (ord (buildVdesks st.active_id (st.monitors.length : Int)
          (normalWs st))).map (vdeskEntry cfg)) ∨
    (cfg.enable_virtual_desktops = false ∧
      base = (specialWs st).map (mapSpecial st.monitors) ++
        (normalWs st).map (normalEntry cfg st.active_id st.monitors)) := by
  unfold hyprBase at hb
  cases hvd : cfg.enable_virtual_desktops with
  | true =>
    rw [hvd] at hb
    simp only [if_true] at hb
    by_cases hguard : st.monitors.length = 0 ∧ normalWs st ≠ []
    · rw [if_pos hguard] at hb
      cases hb
    · rw [if_neg hguard] at hb
      exact Or.inl ⟨rfl, hguard, (Option.some.inj hb).symm⟩
  | false =>
    rw [hvd] at hb
    simp only [Bool.false_eq_true, if_false] at hb
    exact Or.inr ⟨rfl, (Option.some.inj hb).symm⟩

theorem hyprGetWorkspaces_cases
    {ord : List (Int × VirtualDesktop) → List (Int × VirtualDesktop)}
    {st : HyprState} {cfg : WorkspacesModuleConfig} {ws : List Workspace}
    (h : hyprGetWorkspaces ord st cfg = some ws) :
    ∃ base, hyprBase ord st cfg = some base ∧
      ((¬cfg.enable_workspace_filling = true ∨ normalWs st = []) ∧
        ws = sortByKey base ∨
      (cfg.enable_workspace_filling = true ∧ normalWs st ≠ []) ∧
        ws = sortByKey (fillMissing cfg base)) := by
  unfold hyprGetWorkspaces at h
  cases hb : hyprBase ord st cfg with
  | none => rw [hb] at h; cases h
  | some base =>
    rw [hb] at h
    dsimp only at h
    refine ⟨base, rfl, ?_⟩
    by_cases hcond : ¬cfg.enable_workspace_filling = true ∨ normalWs st = []
    · rw [if_pos hcond] at h
      exact Or.inl ⟨hcond, (Option.some.inj h).symm⟩
    · rw [if_neg hcond] at h
      push_neg at hcond
      exact Or.inr ⟨⟨hcond.1, hcond.2⟩, (Option.some.inj h).symm⟩

theorem fillMissing_eq (cfg : WorkspacesModuleConfig) (base : List Workspace) :
    fillMissing cfg base = base ++
      ((intRange 1 (fillMaxId cfg (base.map Workspace.id))).filter
        (fun i => decide (i ∉ base.map Workspace.id))).map (placeholder cfg) :=
  rfl

theorem intRange_nodup (a b : Int) : (intRange a b).Nodup := by
  unfold intRange
  refine List.Nodup.map ?_ (List.nodup_range _)
  intro i j hij
  dsimp only at hij
  omega

theorem mem_intRange {a b x : Int} : x ∈ intRange a b ↔ a ≤ x ∧ x ≤ b := by
  unfold intRange
  simp only [List.mem_map, List.mem_range]
  constructor
  · rintro ⟨i, hi, rfl⟩
    omega
  · intro ⟨h1, h2⟩
    exact ⟨(x - a).toNat, by omega, by omega⟩

theorem fillMissing_ids_nodup (cfg : WorkspacesModuleConfig)
    {base : List Workspace} (h : (base.map Workspace.id).Nodup) :
    ((fillMissing cfg base).map Workspace.id).Nodup := by
  rw [fillMissing_eq, List.map_append, fillResult_ids]
  refine List.Nodup.append h (List.Nodup.filter _ (intRange_nodup _ _)) ?_
  intro a ha ha'
  exact (of_decide_eq_true (List.mem_filter.mp ha').2) ha

theorem mem_specialResult_ids {st : HyprState} {a : Int}
    (ha : a ∈ ((specialWs st).map (mapSpecial st.monitors)).map Workspace.id) :
    a < 0 := by
  rw [specialResult_ids] at ha
  obtain ⟨w, hw, rfl⟩ := List.mem_map.mp ha
  exact specialWs_ids_neg st w hw

theorem hyprBase_ids_nodup
    {ord : List (Int × VirtualDesktop) → List (Int × VirtualDesktop)}
    (hord : ∀ l, (ord l).Perm l)
    {st : HyprState} {cfg : WorkspacesModuleConfig} {base : List Workspace}
    (hb : hyprBase ord st cfg = some base) :
    (base.map Workspace.id).Nodup := by
  rcases hyprBase_cases hb with ⟨-, hguard, hbase⟩ | ⟨-, hbase⟩
  · subst hbase
    rw [List.map_append, vdeskResult_ids]
    have hkeysperm :
        ((ord (buildVdesks st.active_id (st.monitors.length : Int)
          (normalWs st))).map Prod.fst).Perm
        ((buildVdesks st.active_id (st.monitors.length : Int)
          (normalWs st)).map Prod.fst) :=
      (hord _).map Prod.fst
    refine List.Nodup.append ?_
      (hkeysperm.symm.nodup (buildVdesks_keys_nodup _ _ _)) ?_
    · rw [specialResult_ids]
      exact specialWs_ids_nodup st
    · intro a ha ha'
      have haneg := mem_specialResult_ids ha
      have hamem := hkeysperm.mem_iff.mp ha'
      by_cases hnil : normalWs st = []
      · rw [hnil] at hamem
        simp [buildVdesks] at hamem
      · have hmc : (1 : Int) ≤ (st.monitors.length : Int) := by
          have : st.monitors.length ≠ 0 := fun hz => hguard ⟨hz, hnil⟩
          omega
        have := buildVdesks_keys_nonneg hmc (normalWs_ids_nonneg st) a hamem
        omega
  · subst hbase
    rw [List.map_append, specialResult_ids, normalResult_ids]
    refine List.Nodup.append (specialWs_ids_nodup st) (normalWs_ids_nodup st) ?_
    intro a ha ha'
    obtain ⟨w, hw, rfl⟩ := List.mem_map.mp ha
    obtain ⟨v, hv, hva⟩ := List.mem_map.mp ha'
    have h1 := specialWs_ids_neg st w hw
    have h2 := normalWs_ids_nonneg st v hv
    omega

/-- C2: the full-featured reconciliation always yields pairwise-distinct ids
and a list sorted ascending by id. -/
theorem c2_unique_ids_sorted
    (ord : List (Int × VirtualDesktop) → List (Int × VirtualDesktop))
    (hord : ∀ l, (ord l).Perm l)
    (st : HyprState) (cfg : WorkspacesModuleConfig) (ws : List Workspace)
    (h : hyprGetWorkspaces ord st cfg = some ws) :
    (ws.map Workspace.id).Nodup ∧ ws.Pairwise (fun a b => a.id ≤ b.id) := by
  obtain ⟨base, hb, hcase⟩ := hyprGetWorkspaces_cases h
  have hnodup := hyprBase_ids_nodup hord hb
  rcases hcase with ⟨-, hws⟩ | ⟨-, hws⟩
  · subst hws
    exact ⟨(((sortByKey_perm base).map Workspace.id).symm).nodup hnodup,
      sortByKey_sorted base⟩
  · subst hws
    exact ⟨(((sortByKey_perm (fillMissing cfg base)).map
        Workspace.id).symm).nodup (fillMissing_ids_nodup cfg hnodup),
      sortByKey_sorted _⟩

theorem c2_witness :
    (((hyprGetWorkspaces id
        { active_id := some 1
          monitors := [⟨-1, 1⟩]
          workspaces := [⟨-2, "special:a", some 0, "DP-1", 1⟩,
                         ⟨3, "3", some 0, "DP-1", 1⟩,
                         ⟨1, "1", some 0, "DP-1", 1⟩,
                         ⟨1, "dup", some 0, "DP-1", 1⟩] }
        { enable_virtual_desktops := false
          enable_workspace_filling := true
          max_workspaces := some 4
          workspace_names := [] }).getD []).map Workspace.id).Nodup ∧
    ((hyprGetWorkspaces id
        { active_id := some 1
          monitors := [⟨-1, 1⟩]
          workspaces := [⟨-2, "special:a", some 0, "DP-1", 1⟩,
                         ⟨3, "3", some 0, "DP-1", 1⟩,
                         ⟨1, "1", some 0, "DP-1", 1⟩,
                         ⟨1, "dup", some 0, "DP-1", 1⟩] }
        { enable_virtual_desktops := false
          enable_workspace_filling := true
          max_workspaces := some 4
          workspace_names := [] }).getD []).Pairwise
      (fun a b => a.id ≤ b.id) :=
  c2_unique_ids_sorted id (fun l => List.Perm.refl l)
    { active_id := some 1
      monitors := [⟨-1, 1⟩]
      workspaces := [⟨-2, "special:a", some 0, "DP-1", 1⟩,
                     ⟨3, "3", some 0, "DP-1", 1⟩,
                     ⟨1, "1", some 0, "DP-1", 1⟩,
                     ⟨1, "dup", some 0, "DP-1", 1⟩] }
    { enable_virtual_desktops := false
      enable_workspace_filling := true
      max_workspaces := some 4
      workspace_names := [] } _ (by rfl)

theorem specialResult_count_zero (st : HyprState) :
    ((specialWs st).map (mapSpecial st.monitors)).countP
      (fun w => decide (0 ≤ w.id) && decide (w.displayed = Displayed.Active)) = 0 := by
  rw [List.countP_eq_zero]
  intro e he
  obtain ⟨w, hw, rfl⟩ := List.mem_map.mp he
  have hneg := specialWs_ids_neg st w hw
  simp only [Bool.and_eq_true, decide_eq_true_iff, mapSpecial, not_and]
  intro h0
  omega

theorem normalResult_count_le_one (cfg : WorkspacesModuleConfig)
    (st : HyprState) :
    ((normalWs st).map (normalEntry cfg st.active_id st.monitors)).countP
      (fun w => decide (0 ≤ w.id) && decide (w.displayed = Displayed.Active)) ≤ 1 := by
  rw [List.countP_map]
  refine @countP_le_one_of_key RawWorkspace (Option Int) _ (normalWs st)
    (fun w : RawWorkspace => some w.id) _ st.active_id ?_ ?_
  · have hmm : List.map (fun w : RawWorkspace => some w.id) (normalWs st) =
        List.map some ((normalWs st).map RawWorkspace.id) := by
      rw [List.map_map]
      rfl
    rw [hmm]
    exact List.Nodup.map (Option.some_injective Int) (normalWs_ids_nodup st)
  · intro w hw hpw
    simp only [Function.comp, Bool.and_eq_true, decide_eq_true_iff] at hpw
    by_cases ha : st.active_id = some w.id
    · exact ha.symm
    · exfalso
      have hdisp := hpw.2
      simp only [normalEntry, decide_eq_false ha, Bool.false_eq_true, if_false] at hdisp
      by_cases hm : st.monitors.any
          (fun m => decide (m.active_workspace_id = w.id)) = true
      · rw [if_pos hm] at hdisp
        cases hdisp
      · rw [if_neg hm] at hdisp
        cases hdisp

theorem vdeskResult_count_le_one
    {ord : List (Int × VirtualDesktop) → List (Int × VirtualDesktop)}
    (hord : ∀ l, (ord l).Perm l) (cfg : WorkspacesModuleConfig)
    (st : HyprState) (mc : Int) :
    ((ord (buildVdesks st.active_id mc (normalWs st))).map
      (vdeskEntry cfg)).countP
        (fun w => decide (0 ≤ w.id) && decide (w.displayed = Displayed.Active)) ≤ 1 := by
  rw [List.countP_map, ((hord _).countP_eq _)]
  calc (buildVdesks st.active_id mc (normalWs st)).countP
        ((fun w => decide (0 ≤ w.id) && decide (w.displayed = Displayed.Active)) ∘
          vdeskEntry cfg) ≤
      (buildVdesks st.active_id mc (normalWs st)).countP (fun kv => kv.2.active) := by
        refine List.countP_mono_left ?_
        intro kv hkv hp
        simp only [Function.comp, Bool.and_eq_true, decide_eq_true_iff] at hp
        by_cases hact : kv.2.active = true
        · exact hact
        · exfalso
          have hdisp := hp.2
          simp only [vdeskEntry, hact, Bool.false_eq_true, if_false] at hdisp
          cases hdisp
    _ ≤ (normalWs st).countP (fun w => decide (some w.id = st.active_id)) :=
        buildVdesks_countActive st.active_id mc (normalWs st)
    _ ≤ 1 := by
        refine @countP_le_one_of_key RawWorkspace (Option Int) _ (normalWs st)
          (fun w : RawWorkspace => some w.id) _ st.active_id ?_ ?_
        · have hmm : List.map (fun w : RawWorkspace => some w.id) (normalWs st) =
              List.map some ((normalWs st).map RawWorkspace.id) := by
            rw [List.map_map]
            rfl
          rw [hmm]
          exact List.Nodup.map (Option.some_injective Int) (normalWs_ids_nodup st)
        · intro w hw hpw
          exact of_decide_eq_true hpw

theorem hyprBase_count_le_one
    {ord : List (Int × VirtualDesktop) → List (Int × VirtualDesktop)}
    (hord : ∀ l, (ord l).Perm l)
    {st : HyprState} {cfg : WorkspacesModuleConfig} {base : List Workspace}
    (hb : hyprBase ord st cfg = some base) :
    base.countP
      (fun w => decide (0 ≤ w.id) && decide (w.displayed = Displayed.Active)) ≤ 1 := by
  rcases hyprBase_cases hb with ⟨-, -, hbase⟩ | ⟨-, hbase⟩ <;> subst hbase <;>
    rw [List.countP_append, specialResult_count_zero]
  · simpa using vdeskResult_count_le_one hord cfg st (st.monitors.length : Int)
  · simpa using normalResult_count_le_one cfg st

/-- C1 (amended): within one reconciliation result at most one entry with a
non-negative id is `Active`; entries with negative id (special workspaces)
can each be `Active` at the same time. -/
theorem c1_at_most_one_nonneg_active
    (ord : List (Int × VirtualDesktop) → List (Int × VirtualDesktop))
    (hord : ∀ l, (ord l).Perm l)
    (st : HyprState) (cfg : WorkspacesModuleConfig) (ws : List Workspace)
    (h : hyprGetWorkspaces ord st cfg = some ws) :
    ws.countP
      (fun w => decide (0 ≤ w.id) && decide (w.displayed = Displayed.Active)) ≤ 1 := by
  obtain ⟨base, hb, hcase⟩ := hyprGetWorkspaces_cases h
  have hbase := hyprBase_count_le_one hord hb
  rcases hcase with ⟨-, hws⟩ | ⟨-, hws⟩ <;> subst hws
  · rw [((sortByKey_perm base).countP_eq _)]
    exact hbase
  · rw [((sortByKey_perm _).countP_eq _), fillMissing_eq, List.countP_append]
    have hfill : (((intRange 1 (fillMaxId cfg (base.map Workspace.id))).filter
        (fun i => decide (i ∉ base.map Workspace.id))).map
          (placeholder cfg)).countP
        (fun w => decide (0 ≤ w.id) && decide (w.displayed = Displayed.Active)) = 0 := by
      rw [List.countP_eq_zero]
      intro e he
      obtain ⟨i, -, rfl⟩ := List.mem_map.mp he
      simp [placeholder]
    omega

theorem c1_amended_witness :
    ((hyprGetWorkspaces id
      { active_id := some 1
        monitors := [⟨-1, 1⟩]
        workspaces := [⟨-1, "special:x", some 0, "DP-1", 0⟩,
                       ⟨1, "1", some 0, "DP-1", 1⟩] }
      { enable_virtual_desktops := false
        enable_workspace_filling := false
        max_workspaces := none
        workspace_names := [] }).getD []).countP
      (fun w => decide (0 ≤ w.id) && decide (w.displayed = Displayed.Active)) ≤ 1 :=
  c1_at_most_one_nonneg_active id (fun l => List.Perm.refl l)
    { active_id := some 1
      monitors := [⟨-1, 1⟩]
      workspaces := [⟨-1, "special:x", some 0, "DP-1", 0⟩,
                     ⟨1, "1", some 0, "DP-1", 1⟩] }
    { enable_virtual_desktops := false
      enable_workspace_filling := false
      max_workspaces := none
      workspace_names := [] } _ (by rfl)

theorem foldl_max_perm {l1 l2 : List Int} (h : l1.Perm l2) :
    ∀ a : Int, l1.foldl max a = l2.foldl max a := by
  induction h with
  | nil => intro a; rfl
  | cons x h ih =>
    intro a
    simp only [List.foldl_cons]
    exact ih (max a x)
  | swap x y l =>
    intro a
    simp only [List.foldl_cons]
    rw [show max (max a y) x = max (max a x) y from by
      rw [max_assoc, max_comm y x, ← max_assoc]]
  | trans h1 h2 ih1 ih2 =>
    intro a
    exact (ih1 a).trans (ih2 a)

theorem maxPosId_perm {l1 l2 : List Int} (h : l1.Perm l2) :
    maxPosId l1 = maxPosId l2 :=
  foldl_max_perm (h.filter _) 0

theorem fillMaxId_perm (cfg : WorkspacesModuleConfig) {l1 l2 : List Int}
    (h : l1.Perm l2) : fillMaxId cfg l1 = fillMaxId cfg l2 := by
  unfold fillMaxId
  rw [maxPosId_perm h]

theorem fillMissing_perm (cfg : WorkspacesModuleConfig)
    {b1 b2 : List Workspace} (h : b1.Perm b2) :
    (fillMissing cfg b1).Perm (fillMissing cfg b2) := by
  rw [fillMissing_eq, fillMissing_eq]
  have hids : (b1.map Workspace.id).Perm (b2.map Workspace.id) := h.map _
  have hfil : (intRange 1 (fillMaxId cfg (b1.map Workspace.id))).filter
      (fun i => decide (i ∉ b1.map Workspace.id)) =
    (intRange 1 (fillMaxId cfg (b2.map Workspace.id))).filter
      (fun i => decide (i ∉ b2.map Workspace.id)) := by
    rw [fillMaxId_perm cfg hids]
    refine List.filter_congr ?_
    intro x hx
    simp only [decide_eq_decide]
    exact not_congr hids.mem_iff
  rw [hfil]
  exact h.append_right _

theorem sorted_nodup_perm_eq {l1 l2 : List Workspace} (hp : l1.Perm l2)
    (hs1 : l1.Pairwise (fun a b => a.id ≤ b.id))
    (hs2 : l2.Pairwise (fun a b => a.id ≤ b.id))
    (hn : (l1.map Workspace.id).Nodup) : l1 = l2 := by
  haveI : IsAntisymm Workspace (fun a b => a.id < b.id) :=
    ⟨fun a b h1 h2 => absurd h2 (not_lt.mpr (le_of_lt h1))⟩
  have hne1 : l1.Pairwise (fun a b => a.id ≠ b.id) := List.pairwise_map.mp hn
  have hlt1 : l1.Pairwise (fun a b => a.id < b.id) :=
    (hs1.and hne1).imp (fun h => lt_of_le_of_ne h.1 h.2)
  have hn2 : (l2.map Workspace.id).Nodup := (hp.map _).nodup hn
  have hne2 : l2.Pairwise (fun a b => a.id ≠ b.id) := List.pairwise_map.mp hn2
  have hlt2 : l2.Pairwise (fun a b => a.id < b.id) :=
    (hs2.and hne2).imp (fun h => lt_of_le_of_ne h.1 h.2)
  exact List.eq_of_perm_of_sorted hp hlt1 hlt2

theorem hyprBase_perm
    {ord1 ord2 : List (Int × VirtualDesktop) → List (Int × VirtualDesktop)}
    (h1 : ∀ l, (ord1 l).Perm l) (h2 : ∀ l, (ord2 l).Perm l)
    (st : HyprState) (cfg : WorkspacesModuleConfig) :
    (hyprBase ord1 st cfg = none ∧ hyprBase ord2 st cfg = none) ∨
    (∃ b1 b2, hyprBase ord1 st cfg = some b1 ∧ hyprBase ord2 st cfg = some b2 ∧
      b1.Perm b2) := by
  unfold hyprBase
  cases hvd : cfg.enable_virtual_desktops with
  | true =>
    simp only [if_true]
    by_cases hguard : st.monitors.length = 0 ∧ normalWs st ≠ []
    · left
      rw [if_pos hguard, if_pos hguard]
      exact ⟨rfl, rfl⟩
    · right
      refine ⟨_, _, by rw [if_neg hguard], by rw [if_neg hguard], ?_⟩
      exact List.Perm.append_left _
        (List.Perm.map _ ((h1 _).trans (h2 _).symm))
  | false =>
    simp only [Bool.false_eq_true, if_false]
    exact Or.inr ⟨_, _, rfl, rfl, List.Perm.refl _⟩

/-- C8: the reconciliation is deterministic in its inputs: for a fixed
upstream state and config the result does not depend on the iteration order
of the virtual-desktop hash map, so two invocations with unchanged upstream
state yield identical lists. -/
theorem c8_deterministic
    (ord1 ord2 : List (Int × VirtualDesktop) → List (Int × VirtualDesktop))
    (h1 : ∀ l, (ord1 l).Perm l) (h2 : ∀ l, (ord2 l).Perm l)
    (st : HyprState) (cfg : WorkspacesModuleConfig) :
    hyprGetWorkspaces ord1 st cfg = hyprGetWorkspaces ord2 st cfg := by
  rcases hyprBase_perm h1 h2 st cfg with ⟨hb1, hb2⟩ | ⟨b1, b2, hb1, hb2, hperm⟩
  · unfold hyprGetWorkspaces
    rw [hb1, hb2]
  · unfold hyprGetWorkspaces
    rw [hb1, hb2]
    dsimp only
    have hn1 := hyprBase_ids_nodup h1 hb1
    by_cases hcond : ¬cfg.enable_workspace_filling = true ∨ normalWs st = []
    · rw [if_pos hcond, if_pos hcond]
      have heq : sortByKey b1 = sortByKey b2 :=
        sorted_nodup_perm_eq
          ((sortByKey_perm b1).trans (hperm.trans (sortByKey_perm b2).symm))
          (sortByKey_sorted b1) (sortByKey_sorted b2)
          (((sortByKey_perm b1).map Workspace.id).symm.nodup hn1)
      rw [heq]
    · rw [if_neg hcond, if_neg hcond]
      have hfp := fillMissing_perm cfg hperm
      have heq : sortByKey (fillMissing cfg b1) = sortByKey (fillMissing cfg b2) :=
        sorted_nodup_perm_eq
          ((sortByKey_perm _).trans (hfp.trans (sortByKey_perm _).symm))
          (sortByKey_sorted _) (sortByKey_sorted _)
          (((sortByKey_perm _).map Workspace.id).symm.nodup
            (fillMissing_ids_nodup cfg hn1))
      rw [heq]

theorem c8_witness :
    hyprGetWorkspaces id
      { active_id := some 3
        monitors := [⟨0, 1⟩, ⟨0, 2⟩]
        workspaces := [⟨1, "1", none, "", 1⟩, ⟨2, "2", none, "", 2⟩,
                       ⟨3, "3", none, "", 3⟩, ⟨4, "4", none, "", 4⟩] }
      { enable_virtual_desktops := true
        enable_workspace_filling := false
        max_workspaces := none
        workspace_names := [] } =
    hyprGetWorkspaces List.reverse
      { active_id := some 3
        monitors := [⟨0, 1⟩, ⟨0, 2⟩]
        workspaces := [⟨1, "1", none, "", 1⟩, ⟨2, "2", none, "", 2⟩,
                       ⟨3, "3", none, "", 3⟩, ⟨4, "4", none, "", 4⟩] }
      { enable_virtual_desktops := true
        enable_workspace_filling := false
        max_workspaces := none
        workspace_names := [] } :=
  c8_deterministic id List.reverse (fun l => List.Perm.refl l)
    (fun l => List.reverse_perm l) _ _

theorem takeWhile_append_of_exists_not {p : Char → Bool} {l : List Char}
    (m : List Char) (h : ∃ x ∈ l, ¬p x = true) :
    (l ++ m).takeWhile p = l.takeWhile p := by
  induction l with
  | nil =>
    obtain ⟨x, hx, -⟩ := h
    cases hx
  | cons a l ih =>
    cases hpa : p a with
    | false => simp [List.takeWhile_cons, hpa]
    | true =>
      obtain ⟨x, hx, hpx⟩ := h
      rcases List.mem_cons.mp hx with hx | hx
      · exact absurd (hx ▸ hpa) hpx
      · simp only [List.cons_append, List.takeWhile_cons, hpa]
        rw [ih ⟨x, hx, hpx⟩]

theorem takeWhile_append_of_all {p : Char → Bool} {l : List Char}
    (m : List Char) (h : ∀ x ∈ l, p x = true) :
    (l ++ m).takeWhile p = l ++ m.takeWhile p := by
  induction l with
  | nil => rfl
  | cons a l ih =>
    have hpa := h a (List.mem_cons_self a l)
    simp [List.cons_append, List.takeWhile_cons, hpa,
      ih (fun x hx => h x (List.mem_cons_of_mem a hx))]

theorem splitOnColon_ne_nil (l : List Char) : splitOnColon l ≠ [] := by
  cases l with
  | nil => simp [splitOnColon]
  | cons c cs =>
    cases hsc : splitOnColon cs with
    | nil => simp [splitOnColon, hsc]
    | cons seg rest =>
      by_cases hc : c = ':' <;> simp [splitOnColon, hsc, hc]

theorem splitOnColon_no_colon {l : List Char} (h : ':' ∉ l) :
    splitOnColon l = [l] := by
  induction l with
  | nil => rfl
  | cons c cs ih =>
    have hc : ¬c = ':' := fun hcc => h (hcc ▸ List.mem_cons_self c cs)
    have hcs : ':' ∉ cs := fun hmem => h (List.mem_cons_of_mem c hmem)
    simp only [splitOnColon, ih hcs, if_neg hc]

theorem splitOnColon_length_two {l : List Char} (h : ':' ∈ l) :
    2 ≤ (splitOnColon l).length := by
  induction l with
  | nil => cases h
  | cons c cs ih =>
    cases hsc : splitOnColon cs with
    | nil => exact absurd hsc (splitOnColon_ne_nil cs)
    | cons seg rest =>
      by_cases hc : c = ':'
      · simp [splitOnColon, hsc, hc]
      · have hcs : ':' ∈ cs := by
          rcases List.mem_cons.mp h with h | h
          · exact absurd h.symm hc
          · exact h
        have := ih hcs
        rw [hsc] at this
        simp only [splitOnColon, hsc, if_neg hc, List.length_cons] at this ⊢
        omega

theorem getLastD_ne_nil {α : Type} {l : List α} (h : l ≠ []) (d1 d2 : α) :
    l.getLastD d1 = l.getLastD d2 := by
  cases l with
  | nil => exact absurd rfl h
  | cons a as => rw [List.getLastD_cons, List.getLastD_cons]

theorem splitOnColon_getLastD (l : List Char) :
    (splitOnColon l).getLastD [] =
      (if ':' ∈ l then (l.reverse.takeWhile (fun c => decide (c ≠ ':'))).reverse
       else l) := by
  induction l with
  | nil => rfl
  | cons c cs ih =>
    cases hsc : splitOnColon cs with
    | nil => exact absurd hsc (splitOnColon_ne_nil cs)
    | cons seg rest =>
      by_cases hc : c = ':'
      · subst hc
        have hmem : (':' : Char) ∈ ':' :: cs := List.mem_cons_self _ _
        rw [if_pos hmem]
        have hlhs : (splitOnColon (':' :: cs)).getLastD [] =
            (splitOnColon cs).getLastD [] := by
          simp [splitOnColon, hsc, List.getLastD_cons]
        rw [hlhs, ih]
        by_cases hcs : ':' ∈ cs
        · rw [if_pos hcs]
          have : ((':' :: cs).reverse).takeWhile (fun c => decide (c ≠ ':')) =
              (cs.reverse).takeWhile (fun c => decide (c ≠ ':')) := by
            rw [List.reverse_cons]
            refine takeWhile_append_of_exists_not _ ⟨':', List.mem_reverse.mpr hcs, by simp⟩
          rw [this]
        · rw [if_neg hcs]
          have : ((':' :: cs).reverse).takeWhile (fun c => decide (c ≠ ':')) =
              cs.reverse := by
            rw [List.reverse_cons]
            rw [takeWhile_append_of_all _ ?_]
            · simp
            · intro x hx
              have hxne : x ≠ ':' := by
                intro hxx
                exact hcs (List.mem_reverse.mp (hxx ▸ hx))
              exact decide_eq_true hxne
          rw [this, List.reverse_reverse]
      · have hlhs : splitOnColon (c :: cs) = (c :: seg) :: rest := by
          simp only [splitOnColon, hsc, if_neg hc]
        by_cases hcs : ':' ∈ cs
        · have hmem : ':' ∈ c :: cs := List.mem_cons_of_mem c hcs
          rw [if_pos hmem, hlhs]
          have hrest : rest ≠ [] := by
            have := splitOnColon_length_two hcs
            rw [hsc] at this
            intro hrnil
            rw [hrnil] at this
            rw [List.length_singleton] at this
            omega
          have h1 : ((c :: seg) :: rest).getLastD [] = rest.getLastD (c :: seg) :=
            List.getLastD_cons _ _ _
          have h2 : (seg :: rest).getLastD [] = rest.getLastD seg :=
            List.getLastD_cons _ _ _
          have h3 : (splitOnColon cs).getLastD [] = rest.getLastD seg := by
            rw [hsc]; exact h2
          rw [h1, getLastD_ne_nil hrest (c :: seg) seg, ← h3, ih, if_pos hcs]
          have : ((c :: cs).reverse).takeWhile (fun c => decide (c ≠ ':')) =
              (cs.reverse).takeWhile (fun c => decide (c ≠ ':')) := by
            rw [List.reverse_cons]
            refine takeWhile_append_of_exists_not _ ⟨':', List.mem_reverse.mpr hcs, by simp⟩
          rw [this]
        · have hnone : ':' ∉ c :: cs := by
            intro hmem
            rcases List.mem_cons.mp hmem with h | h
            · exact hc h.symm
            · exact hcs h
          rw [if_neg hnone]
          have hseg : splitOnColon cs = [cs] := splitOnColon_no_colon hcs
          rw [hseg] at hsc
          obtain ⟨hseg', hrest'⟩ : seg = cs ∧ rest = [] := by
            cases hsc; exact ⟨rfl, rfl⟩
          subst hseg'; subst hrest'
          rw [hlhs]
          rfl

theorem specialDisplayName_eq_amended (s : String) :
    specialDisplayName s = amendedSpecialName s := by
  unfold specialDisplayName amendedSpecialName
  rw [splitOnColon_getLastD]
  by_cases h : ':' ∈ s.data
  · rw [if_pos h, if_pos h]
  · rw [if_neg h, if_neg h]

/-- C5 (amended): every special workspace surviving deduplication yields an
output entry whose display name is the substring after the last `':'` of the
raw name when one occurs, and the whole raw name otherwise. -/
theorem c5_special_name_suffix
    (ord : List (Int × VirtualDesktop) → List (Int × VirtualDesktop))
    (st : HyprState) (cfg : WorkspacesModuleConfig) (ws : List Workspace)
    (h : hyprGetWorkspaces ord st cfg = some ws)
    (w : RawWorkspace) (hw : w ∈ specialWs st) :
    ∃ e ∈ ws, e.id = w.id ∧ e.name = amendedSpecialName w.name := by
  refine ⟨mapSpecial st.monitors w, ?_, rfl, specialDisplayName_eq_amended w.name⟩
  obtain ⟨base, hb, hcase⟩ := hyprGetWorkspaces_cases h
  have hmem_base : mapSpecial st.monitors w ∈ base := by
    rcases hyprBase_cases hb with ⟨-, -, hbase⟩ | ⟨-, hbase⟩ <;> subst hbase <;>
      exact List.mem_append.mpr (Or.inl (List.mem_map.mpr ⟨w, hw, rfl⟩))
  rcases hcase with ⟨-, hws⟩ | ⟨-, hws⟩ <;> subst hws
  · exact (sortByKey_perm base).mem_iff.mpr hmem_base
  · refine (sortByKey_perm _).mem_iff.mpr ?_
    rw [fillMissing_eq]
    exact List.mem_append.mpr (Or.inl hmem_base)

theorem c5_amended_witness :
    ∃ e ∈ ((hyprGetWorkspaces id
      { active_id := none
        monitors := []
        workspaces := [⟨-1, "special:magic", none, "", 0⟩,
                       ⟨-2, "scratch", none, "", 0⟩] }
      { enable_virtual_desktops := false
        enable_workspace_filling := false
        max_workspaces := none
        workspace_names := [] }).getD []),
      e.id = (-2 : Int) ∧ e.name = amendedSpecialName "scratch" :=
  c5_special_name_suffix id
    { active_id := none
      monitors := []
      workspaces := [⟨-1, "special:magic", none, "", 0⟩,
                     ⟨-2, "scratch", none, "", 0⟩] }
    { enable_virtual_desktops := false
      enable_workspace_filling := false
      max_workspaces := none
      workspace_names := [] } _ (by rfl)
    ⟨-2, "scratch", none, "", 0⟩ (by decide)

/-- C3 (amended): a placeholder for a missing id in `1..=max_id` (with
`max_id` the larger of the greatest existing positive id and
`config.max_workspaces`) appears in the output exactly when
`enable_workspace_filling` is set and at least one normal workspace exists —
in virtual-desktop mode as well as in per-monitor mode. -/
theorem c3_filling_characterization
    (ord : List (Int × VirtualDesktop) → List (Int × VirtualDesktop))
    (st : HyprState) (cfg : WorkspacesModuleConfig)
    (base ws : List Workspace)
    (hb : hyprBase ord st cfg = some base)
    (h : hyprGetWorkspaces ord st cfg = some ws)
    (i : Int) (h1 : 1 ≤ i) (h2 : i ≤ fillMaxId cfg (base.map Workspace.id))
    (h3 : i ∉ base.map Workspace.id) :
    (placeholder cfg i ∈ ws ↔
      (cfg.enable_workspace_filling = true ∧ normalWs st ≠ [])) := by
  obtain ⟨base', hb', hcase⟩ := hyprGetWorkspaces_cases h
  rw [hb] at hb'
  have hbb : base' = base := (Option.some.inj hb').symm
  subst hbb
  constructor
  · intro hmem
    rcases hcase with ⟨hc, hws⟩ | ⟨hc, hws⟩
    · exfalso
      subst hws
      have hmem' := (sortByKey_perm base').mem_iff.mp hmem
      exact h3 (List.mem_map.mpr ⟨placeholder cfg i, hmem', rfl⟩)
    · exact hc
  · intro ⟨hfill, hnormal⟩
    rcases hcase with ⟨hc, hws⟩ | ⟨hc, hws⟩
    · rcases hc with hc | hc
      · exact absurd hfill hc
      · exact absurd hc hnormal
    · subst hws
      refine ((sortByKey_perm _).mem_iff).mpr ?_
      rw [fillMissing_eq]
      refine List.mem_append.mpr (Or.inr ?_)
      refine List.mem_map.mpr ⟨i, ?_, rfl⟩
      exact List.mem_filter.mpr ⟨mem_intRange.mpr ⟨h1, h2⟩, decide_eq_true h3⟩

theorem c3_amended_witness :
    placeholder
      { enable_virtual_desktops := true
        enable_workspace_filling := true
        max_workspaces := some 3
        workspace_names := [] } 2 ∈
      ((hyprGetWorkspaces id
        { active_id := none
          monitors := [⟨0, 1⟩]
          workspaces := [⟨1, "1", some 0, "DP-1", 2⟩] }
        { enable_virtual_desktops := true
          enable_workspace_filling := true
          max_workspaces := some 3
          workspace_names := [] }).getD []) ↔
    ({ enable_virtual_desktops := true
       enable_workspace_filling := true
       max_workspaces := some 3
       workspace_names := [] } : WorkspacesModuleConfig).enable_workspace_filling
        = true ∧
      normalWs
        { active_id := none
          monitors := [⟨0, 1⟩]
          workspaces := [⟨1, "1", some 0, "DP-1", 2⟩] } ≠ [] :=
  c3_filling_characterization id
    { active_id := none
      monitors := [⟨0, 1⟩]
      workspaces := [⟨1, "1", some 0, "DP-1", 2⟩] }
    { enable_virtual_desktops := true
      enable_workspace_filling := true
      max_workspaces := some 3
      workspace_names := [] }
    ((hyprBase id
      { active_id := none
        monitors := [⟨0, 1⟩]
        workspaces := [⟨1, "1", some 0, "DP-1", 2⟩] }
      { enable_virtual_desktops := true
        enable_workspace_filling := true
        max_workspaces := some 3
        workspace_names := [] }).getD []) _
    (by rfl) (by rfl) 2 (by decide) (by decide) (by decide)
